import Mathlib

/-!
Verification development for `thesis_downloader.py`.

Text is modelled as `List Char`.  Python floats are modelled by exact
rationals (`ℚ`); the spec's thresholds (0.8, weights 0.6/0.4) are the
rationals 4/5, 3/5, 2/5.  Unicode case mapping is modelled for the Basic
Latin and Latin-1 ranges (the data the program handles); Python's whitespace
set is modelled by its ASCII members.
-/

set_option maxRecDepth 100000

/-- Convert a string literal to the `List Char` representation used here. -/
def cl (s : String) : List Char := s.toList

/-- Python `str` whitespace test, restricted to the ASCII whitespace
characters space, tab, newline, vertical tab, form feed, carriage return. -/
def pyIsSpace (c : Char) : Bool :=
  decide (c.toNat = 32 ∨ c.toNat = 9 ∨ c.toNat = 10 ∨ c.toNat = 11 ∨
    c.toNat = 12 ∨ c.toNat = 13)

/-- Python `str.isupper` on a single character, modelled for Basic Latin
(A-Z) and Latin-1 (À-Þ, excluding the multiplication sign ×). -/
def pyIsUpper (c : Char) : Bool :=
  decide ((65 ≤ c.toNat ∧ c.toNat ≤ 90) ∨
    (192 ≤ c.toNat ∧ c.toNat ≤ 222 ∧ c.toNat ≠ 215))

/-- Python `str.lower` on a single character, modelled for Basic Latin and
Latin-1; other characters are left unchanged. -/
def pyLower (c : Char) : Char :=
  if 65 ≤ c.toNat ∧ c.toNat ≤ 90 then Char.ofNat (c.toNat + 32)
  else if 192 ≤ c.toNat ∧ c.toNat ≤ 222 ∧ c.toNat ≠ 215 then Char.ofNat (c.toNat + 32)
  else c

/-- Characters kept by the regex substitution `re.sub(r'[^a-z0-9\s]', '', …)`:
lowercase ASCII letters, ASCII digits, and whitespace. -/
def allowedChar (c : Char) : Bool :=
  decide ((97 ≤ c.toNat ∧ c.toNat ≤ 122) ∨ (48 ≤ c.toNat ∧ c.toNat ≤ 57)) || pyIsSpace c

/-- Python `str.split()` (split on whitespace runs, dropping empty pieces):
accumulator-based tokenizer; `acc` holds the current token reversed. -/
def splitWsAux : List Char → List Char → List (List Char)
  | [], acc => if acc.isEmpty then [] else [acc.reverse]
  | c :: cs, acc =>
    if pyIsSpace c then
      if acc.isEmpty then splitWsAux cs [] else acc.reverse :: splitWsAux cs []
    else splitWsAux cs (c :: acc)

/-- Python `str.split()` with no argument. -/
def splitWs (l : List Char) : List (List Char) := splitWsAux l []

/-- Python `sep.join(parts)`. -/
def joinSep (sep : List Char) : List (List Char) → List Char
  | [] => []
  | [t] => t
  | t :: ts => t ++ sep ++ joinSep sep ts

/-- Python `str.strip()`: remove leading and trailing whitespace. -/
def pyStrip (l : List Char) : List Char :=
  ((l.dropWhile pyIsSpace).reverse.dropWhile pyIsSpace).reverse

/-- `ThesisDownloader._normalize_text` (thesis_downloader.py lines 53-62):
lowercase, drop code points ≥ 128, drop characters other than lowercase
letters / digits / whitespace, then `' '.join(text.split())`. -/
def _normalize_text (text : List Char) : List Char :=
  let t1 := text.map pyLower
  let t2 := t1.filter (fun c => c.toNat < 128)
  let t3 := t2.filter allowedChar
  joinSep [' '] (splitWs t3)

/-- Length of the common run of equal characters at the heads of two lists
(the size of the matching block starting at a given pair of positions). -/
def runLen : List Char → List Char → Nat
  | a :: as, b :: bs => if a = b then runLen as bs + 1 else 0
  | _, _ => 0

/-- One candidate step of `difflib.SequenceMatcher.find_longest_match`:
keep the first (in i-then-j order) strictly longer matching block. -/
def flmStep (a b : List Char) (best : Nat × Nat × Nat) (i j : Nat) : Nat × Nat × Nat :=
  let k := runLen (a.drop i) (b.drop j)
  if best.2.2 < k then (i, j, k) else best

/-- `difflib.SequenceMatcher.find_longest_match` (no junk, the case for the
strings this program compares): the maximal matching block `(i, j, k)` with
minimal `i`, then minimal `j`. -/
def flm (a b : List Char) : Nat × Nat × Nat :=
  (List.range a.length).foldl
    (fun best i => (List.range b.length).foldl (fun bf j => flmStep a b bf i j) best)
    (0, 0, 0)

/-- Total size of the matching blocks of `difflib.SequenceMatcher`
(`get_matching_blocks`): recursively take the longest matching block and
recurse on the left and right remainders.  `fuel` bounds the recursion
depth; every recursive call strictly decreases `a.length + b.length`, so
`a.length + b.length + 1` fuel always suffices (`matchSumF_fuel_ample`). -/
def matchSumF : Nat → List Char → List Char → Nat
  | 0, _, _ => 0
  | fuel + 1, a, b =>
    let t := flm a b
    if t.2.2 = 0 then 0
    else
      matchSumF fuel (a.take t.1) (b.take t.2.1) + t.2.2 +
        matchSumF fuel (a.drop (t.1 + t.2.2)) (b.drop (t.2.1 + t.2.2))

/-- Total matched size `M` used by `SequenceMatcher.ratio`. -/
def matchSum (a b : List Char) : Nat := matchSumF (a.length + b.length + 1) a b

/-- `difflib.SequenceMatcher.ratio`: `2·M / T`, and 1 when both strings are
empty (`_calculate_ratio`). -/
def seqRatio (a b : List Char) : ℚ :=
  if a.length + b.length = 0 then 1
  else (2 * matchSum a b : ℚ) / (a.length + b.length : ℚ)

/-- `ThesisDownloader._similarity_score` (lines 64-68): normalize both texts
and take the `SequenceMatcher` ratio. -/
def _similarity_score (text1 text2 : List Char) : ℚ :=
  seqRatio (_normalize_text text1) (_normalize_text text2)

/-! ## Handle resolver (`ThesisDownloader.discover_handle`, lines 70-163) -/

/-- Does the token start with an uppercase letter
(`author_parts[0][0].isupper()`)? -/
def startsUpper : List Char → Bool
  | [] => false
  | c :: _ => pyIsUpper c

/-- Last-name extraction from the author string (lines 73-80). -/
def extractLastName (author : List Char) : List Char :=
  let parts := splitWs author
  if 2 ≤ parts.length then
    if startsUpper (parts.headD []) then parts.headD []
    else parts.getLastD []
  else
    match parts with
    | [] => []
    | p :: _ => p

/-- A candidate record of the OAI-PMH feed as the resolver sees it: the
(nonempty-text) `dc:title` and `dc:creator` strings and the optional
`oai:identifier` text (`none` models a missing element or null text). -/
structure OAIRecord where
  titles : List (List Char)
  creators : List (List Char)
  identifier : Option (List Char)
deriving DecidableEq, Repr

/-- One feed response per request: `err` models a failed request
(`raise_for_status`) or an XML parse failure; `ok` carries the records of
the batch and the optional `resumptionToken` text. -/
inductive FeedResp where
  | err : FeedResp
  | ok : List OAIRecord → Option (List Char) → FeedResp
deriving DecidableEq, Repr

/-- Python `max` of a list of rationals (the lists scored are nonempty when
this is reached; the `[]` case is unreachable). -/
def pyMax : List ℚ → ℚ
  | [] => 0
  | x :: xs => xs.foldl max x

/-- The last whitespace token of a creator string: `c.split()[-1]`.
`none` models the `IndexError` Python raises when `c` has no tokens. -/
def lastToken (c : List Char) : Option (List Char) := (splitWs c).getLast?

/-- The creator-score list `[similarity(last_name, c.split()[-1]) for c in
record_creators]` (line 132); `none` propagates the `IndexError`. -/
def creatorScoresM (lastName : List Char) (creators : List (List Char)) :
    Option (List ℚ) :=
  creators.mapM (fun c => (lastToken c).map (fun t => _similarity_score lastName t))

/-- Scoring of one candidate record (lines 122-140), threading the running
`(best_match, best_score)` state; `none` models an exception aborting the
strategy.  Weights 0.6 and 0.4 are 3/5 and 2/5; the threshold 0.8 is 4/5. -/
def scanRecord (title lastName : List Char) (st : Option (List Char) × ℚ)
    (r : OAIRecord) : Option (Option (List Char) × ℚ) :=
  let titleScores := r.titles.map (fun t => _similarity_score title t)
  match creatorScoresM lastName r.creators with
  | none => none
  | some creatorScores =>
    if titleScores.isEmpty || creatorScores.isEmpty then some st
    else
      let score := pyMax titleScores * (3/5) + pyMax creatorScores * (2/5)
      if st.2 < score ∧ (4:ℚ)/5 < score then
        match r.identifier with
        | some idt => if idt.isEmpty then some (st.1, score) else some (some idt, score)
        | none => some (st.1, score)
      else some st

/-- The per-batch record loop (lines 119-140), starting from
`best_match = None`, `best_score = 0` for each batch. -/
def scanRecords (title lastName : List Char) :
    List OAIRecord → (Option (List Char) × ℚ) → Option (Option (List Char) × ℚ)
  | [], st => some st
  | r :: rs, st =>
    match scanRecord title lastName st r with
    | none => none
    | some st2 => scanRecords title lastName rs st2

/-- Handle extraction (line 143): the last two `/`-separated segments of the
identifier, joined by `/`. -/
def handleOf (idt : List Char) : List Char :=
  let parts := idt.splitOn '/'
  joinSep ['/'] (parts.drop (parts.length - 2))

/-- Outcome of one strategy: the handle found (if any), the number of feed
requests issued, and — as observable instrumentation for the statements —
the candidate records of every batch scanned before returning. -/
structure StratResult where
  found : Option (List Char)
  requests : Nat
  seen : List OAIRecord
deriving DecidableEq, Repr

/-- Outcome of one iteration of the pagination loop: either the loop stops
with a result, or it continues with the accumulated seen records (and the
next continuation request is issued). -/
inductive StepOut where
  | stop : StratResult → StepOut
  | next : List OAIRecord → StepOut
deriving Repr

/-- One iteration of the pagination loop (lines 106-154): check the time
budget, parse the current response, scan its records with a fresh
`(best_match, best_score)`, return the extracted handle on a match, stop on
a missing or empty continuation token; otherwise continue. -/
def stratStep (title lastName : List Char) (tmo : Nat → Bool) (cur : FeedResp)
    (iter cnt : Nat) (seen : List OAIRecord) : StepOut :=
  if tmo iter then .stop ⟨none, cnt, seen⟩
  else
    match cur with
    | .err => .stop ⟨none, cnt, seen⟩
    | .ok records token =>
      match scanRecords title lastName records (none, 0) with
      | none => .stop ⟨none, cnt, seen⟩
      | some st =>
        match st.1 with
        | some idt => .stop ⟨some (handleOf idt), cnt, seen ++ records⟩
        | none =>
          match token with
          | none => .stop ⟨none, cnt, seen ++ records⟩
          | some t =>
            if t.isEmpty then .stop ⟨none, cnt, seen ++ records⟩
            else .next (seen ++ records)

/-- The pagination loop of one strategy (lines 106-156).  `cur` is the
response being processed, `rest` the responses the feed would give to the
following continuation requests, `iter` the loop-iteration index, `cnt` the
requests issued so far.  `tmo i` tells whether the 60-second budget is
exceeded at the top of iteration `i` (line 107).  When the loop continues,
the next request is issued (`cnt + 1`); an exhausted `rest` models a failed
continuation request. -/
def runStratLoop (title lastName : List Char) (tmo : Nat → Bool) :
    FeedResp → List FeedResp → Nat → Nat → List OAIRecord → StratResult
  | cur, rest, iter, cnt, seen =>
    match stratStep title lastName tmo cur iter cnt seen with
    | .stop res => res
    | .next seen2 =>
      match rest with
      | [] => ⟨none, cnt + 1, seen2⟩
      | r2 :: rest2 =>
        runStratLoop title lastName tmo r2 rest2 (iter + 1) (cnt + 1) seen2

/-- One strategy (lines 98-156): the initial request is issued (count 1) and
its response processed by the loop; an empty response list models a failed
initial request. -/
def runStrategy (title lastName : List Char) (tmo : Nat → Bool) :
    List FeedResp → StratResult
  | [] => ⟨none, 1, []⟩
  | r :: rest => runStratLoop title lastName tmo r rest 0 1 []

/-- A search strategy as the resolver experiences it: the sequence of feed
responses its parameters elicit, and the time-budget trace. -/
structure Strategy where
  resps : List FeedResp
  tmo : Nat → Bool

/-- Strategy iteration (lines 91-163): first strategy with a found handle
wins; errors and exhaustion fall through to the next strategy. -/
def discoverGo (title lastName : List Char) : List Strategy → Option (List Char)
  | [] => none
  | s :: ss =>
    match (runStrategy title lastName s.tmo s.resps).found with
    | some h => some h
    | none => discoverGo title lastName ss

/-- `ThesisDownloader.discover_handle` (lines 70-163): extract the last name
and iterate the strategies; `none` when all strategies are exhausted. -/
def discover_handle (author title : List Char) (strategies : List Strategy) :
    Option (List Char) :=
  discoverGo title (extractLastName author) strategies

/-- Combined score of a single candidate record, for stating properties
(0.6 · best title similarity + 0.4 · best creator similarity). -/
def recordScore (title lastName : List Char) (r : OAIRecord) : ℚ :=
  pyMax (r.titles.map (fun t => _similarity_score title t)) * (3/5) +
    pyMax (r.creators.map (fun c => _similarity_score lastName ((splitWs c).getLastD []))) * (2/5)

/-! ## Record store (`parse_theses_file` lines 306-329, `save_theses_file`
lines 331-340).  The file is modelled by its list of lines. -/

/-- A local thesis record `(title, author, type, year, handle)`. -/
structure ThesisRec where
  title : List Char
  author : List Char
  type : List Char
  year : List Char
  handle : Option (List Char)
deriving DecidableEq, Repr

/-- Parse one line of the record store (lines 309-328): strip, skip empty
lines, split on `,`; with ≥ 5 fields the last is the handle and the title is
`parts[1:-3]` rejoined, otherwise the title is `parts[1:-2]` rejoined; then
`type_ = parts[-2]` and `year = parts[-1]`. -/
def parse_theses_line (line0 : List Char) : Option ThesisRec :=
  let line := pyStrip line0
  if line.isEmpty then none
  else
    let parts := line.splitOn ','
    if 4 ≤ parts.length then
      let author := pyStrip (parts.headD [])
      let handle : Option (List Char) :=
        if 5 ≤ parts.length then some (pyStrip (parts.getLastD [])) else none
      let title :=
        if 5 ≤ parts.length then
          pyStrip (joinSep [','] ((parts.drop 1).take (parts.length - 4)))
        else pyStrip (joinSep [','] ((parts.drop 1).take (parts.length - 3)))
      let type_ := pyStrip (parts.getD (parts.length - 2) [])
      let year := pyStrip (parts.getLastD [])
      some ⟨title, author, type_, year, handle⟩
    else none

/-- `parse_theses_file`: parse every line, keeping the parsed records. -/
def parse_theses_file (lines : List (List Char)) : List ThesisRec :=
  lines.filterMap parse_theses_line

/-- `save_theses_file`, one line (lines 334-340): `author,title,type,year`
plus the handle when it is truthy (present and nonempty). -/
def save_theses_line (t : ThesisRec) : List Char :=
  let base := [t.author, t.title, t.type, t.year]
  let parts :=
    match t.handle with
    | some h => if h.isEmpty then base else base ++ [h]
    | none => base
  joinSep [','] parts

/-- `save_theses_file`: one line per record, in order. -/
def save_theses_file (theses : List ThesisRec) : List (List Char) :=
  theses.map save_theses_line

/-! ## Batch driver (`main`, lines 342-417) -/

/-- Is an ASCII digit? -/
def isDigitCh (c : Char) : Bool := decide (48 ≤ c.toNat ∧ c.toNat ≤ 57)

/-- Numeric value of an ASCII digit string. -/
def digitsVal (l : List Char) : Nat := l.foldl (fun n c => n * 10 + (c.toNat - 48)) 0

/-- Digits-only parse: `none` when empty or a non-digit occurs. -/
def pyIntCore (l : List Char) : Option Nat :=
  if !l.isEmpty && l.all isDigitCh then some (digitsVal l) else none

/-- Python `int(str)`: optional surrounding whitespace, optional sign, ASCII
digits (underscore grouping and non-ASCII digits are not modelled; the year
strings handled here are plain).  `none` models `ValueError`. -/
def pyInt (s : List Char) : Option Int :=
  match pyStrip s with
  | '+' :: ds => (pyIntCore ds).map (fun n => (n : Int))
  | '-' :: ds => (pyIntCore ds).map (fun n => -(n : Int))
  | ds => (pyIntCore ds).map (fun n => (n : Int))

/-- Truthiness of an optional string (`if current_handle:`). -/
def truthyS : Option (List Char) → Bool
  | some l => !l.isEmpty
  | none => false

/-- The enriched metadata record (`ThesisMetadata` dataclass, lines 20-37).
`MDVal` below reflects that the Python metadata bag mixes strings and lists
of strings under its keys.  `last_updated` (a wall-clock timestamp) is not
modelled. -/
inductive MDVal where
  | str : List Char → MDVal
  | lst : List (List Char) → MDVal
deriving DecidableEq, Repr

structure ThesisMetadata where
  title : List Char
  author : List Char
  type : List Char
  year : List Char
  handle : Option (List Char)
  abstract : Option (List Char)
  abstract_en : Option (List Char)
  keywords : MDVal
  keywords_en : MDVal
  department : List Char
  supervisor : List Char
  language : List Char
  url : List Char
  pdf_url : Option (List Char)
deriving DecidableEq, Repr

/-- Metadata backfill from the local record (lines 380-387): each of title,
author, type, year is taken from the local record when the fetched field is
empty and the local one is not. -/
def backfill (r : ThesisRec) (m : ThesisMetadata) : ThesisMetadata :=
  let m1 := if m.title.isEmpty && !r.title.isEmpty then { m with title := r.title } else m
  let m2 := if m1.author.isEmpty && !r.author.isEmpty then { m1 with author := r.author } else m1
  let m3 := if m2.type.isEmpty && !r.type.isEmpty then { m2 with type := r.type } else m2
  if m3.year.isEmpty && !r.year.isEmpty then { m3 with year := r.year } else m3

/-- Result of the driver body for one record: the tuple appended to
`theses_with_handles`, the number of resolver calls, the number of fetcher
calls, and the metadata passed to `save_metadata` (if any). -/
structure DriverStep where
  record : ThesisRec
  resolverCalls : Nat
  fetcherCalls : Nat
  savedMetadata : Option ThesisMetadata
deriving DecidableEq, Repr

/-- The non-skip part of the loop body (lines 367-397): discover the handle
when the stored one is falsy, fetch metadata when a handle is available,
backfill and record the saved metadata, and append the tuple. -/
def processResolved (resolve : List Char → List Char → Option (List Char))
    (fetch : List Char → Option ThesisMetadata) (r : ThesisRec) : DriverStep :=
  let discovery :=
    if truthyS r.handle then (r.handle, 0) else (resolve r.author r.title, 1)
  let ch := discovery.1
  if truthyS ch then
    match fetch (ch.getD []) with
    | some m => ⟨{ r with handle := ch }, discovery.2, 1, some (backfill r m)⟩
    | none => ⟨{ r with handle := none }, discovery.2, 1, none⟩
  else ⟨{ r with handle := none }, discovery.2, 0, none⟩

/-- The loop body of `main` for one record (lines 355-401): records whose
year parses as an integer beyond the current calendar year are passed
through untouched with no remote calls; a non-numeric year falls through to
normal processing. -/
def processRecord (resolve : List Char → List Char → Option (List Char))
    (fetch : List Char → Option ThesisMetadata) (currentYear : Int)
    (r : ThesisRec) : DriverStep :=
  match pyInt r.year with
  | some y =>
    if currentYear < y then ⟨r, 0, 0, none⟩ else processResolved resolve fetch r
  | none => processResolved resolve fetch r

/-- The write-back list accumulated by `main` (order preserved). -/
def mainLoop (resolve : List Char → List Char → Option (List Char))
    (fetch : List Char → Option ThesisMetadata) (currentYear : Int)
    (recs : List ThesisRec) : List ThesisRec :=
  recs.map (fun r => (processRecord resolve fetch currentYear r).record)

/-! ## Metadata fetcher (`ThesisDownloader.get_thesis_metadata`,
lines 165-293).  The two HTTP responses are inputs; the JSON body and the
parsed HTML document (BeautifulSoup's view of it) are modelled as data. -/

/-- The mutable `metadata_dict`: latest assignment wins. -/
def MDict := List (List Char × MDVal)

/-- Dictionary assignment (`metadata_dict[key] = v`). -/
def dset (d : MDict) (k : List Char) (v : MDVal) : MDict := (k, v) :: d

/-- Dictionary lookup (`metadata_dict.get(key)`). -/
def dget (d : MDict) (k : List Char) : Option MDVal :=
  (d.find? (fun p => p.1 == k)).map (fun p => p.2)

/-- Truthiness of a lookup result (`not metadata_dict.get(key)` checks). -/
def truthyV : Option MDVal → Bool
  | none => false
  | some (.str x) => !x.isEmpty
  | some (.lst xs) => !xs.isEmpty

/-- `metadata_dict.get(key, '')` where the stored value is a string. -/
def dgetS (d : MDict) (k : List Char) : List Char :=
  match dget d k with
  | some (.str x) => x
  | some (.lst _) => []
  | none => []

/-- Substring test, Python `needle in hay`. -/
def hasSub (hay needle : List Char) : Bool :=
  (List.range (hay.length + 1)).any (fun i => needle.isPrefixOf (hay.drop i))

/-- The REST detail endpoint's body: `metadata` maps field names to lists of
value objects; an entry's first value string (empty models a missing or
falsy `value`). -/
structure RestDoc where
  fields : List (List Char × List (List Char))

/-- A row of the `ds-includeSet-table`: the text of the label cell and of
the value cell when those cells exist (text already extracted, stripped). -/
structure HtmlRow where
  label : Option (List Char)
  value : Option (List Char)

/-- BeautifulSoup's view of the document page: the metadata table (when
found), the `page-header` heading text, the meta tags (name, content), the
abstract-candidate text blocks in document order, and the anchor hrefs in
document order. -/
structure HtmlDoc where
  table : Option (List HtmlRow)
  pageHeader : Option (List Char)
  metas : List (List Char × List Char)
  blocks : List (List Char)
  links : List (List Char)

/-- An HTTP response: `ok` with a parsed body, `notOk` (`response.ok`
false), or `err` (the request or the body parse raised). -/
inductive HttpResp (α : Type) where
  | ok : α → HttpResp α
  | notOk : HttpResp α
  | err : HttpResp α

/-- REST metadata extraction (lines 172-179): for each key whose value list
is nonempty with a truthy first value, store that value. -/
def restInto (d : MDict) (fields : List (List Char × List (List Char))) : MDict :=
  fields.foldl
    (fun d kv =>
      match kv.2 with
      | [] => d
      | v :: _ => if v.isEmpty then d else dset d kv.1 (.str v))
    d

/-- Keyword splitting: `[k.strip() for k in value_text.split(',')]`. -/
def splitCommaTrim (v : List Char) : List (List Char) :=
  (v.splitOn ',').map pyStrip

/-- One row of the labeled metadata table (lines 189-215): the label text is
lowercased and matched by substring, each field set only when not already
truthy; keyword rows overwrite and route on an `english` label. -/
def tableRow (d : MDict) (row : HtmlRow) : MDict :=
  match row.label, row.value with
  | some lbl0, some val =>
    let lbl := lbl0.map pyLower
    if hasSub lbl (cl "title") && !truthyV (dget d (cl "dc.title")) then
      dset d (cl "dc.title") (.str val)
    else if hasSub lbl (cl "author") && !truthyV (dget d (cl "dc.contributor.author")) then
      dset d (cl "dc.contributor.author") (.str val)
    else if hasSub lbl (cl "type") && !truthyV (dget d (cl "dc.type")) then
      dset d (cl "dc.type") (.str val)
    else if hasSub lbl (cl "date") && hasSub lbl (cl "issued") &&
        !truthyV (dget d (cl "dc.date.issued")) then
      dset d (cl "dc.date.issued") (.str val)
    else if hasSub lbl (cl "supervisor") && !truthyV (dget d (cl "dc.contributor.advisor")) then
      dset d (cl "dc.contributor.advisor") (.str val)
    else if hasSub lbl (cl "department") && !truthyV (dget d (cl "dc.publisher")) then
      dset d (cl "dc.publisher") (.str val)
    else if hasSub lbl (cl "language") && !truthyV (dget d (cl "dc.language.iso")) then
      dset d (cl "dc.language.iso") (.str val)
    else if hasSub lbl (cl "keywords") then
      if hasSub lbl (cl "english") then dset d (cl "dc.subject.en") (.lst (splitCommaTrim val))
      else dset d (cl "dc.subject") (.lst (splitCommaTrim val))
    else d
  | _, _ => d

/-- Title fallback to the `page-header` heading (lines 218-221). -/
def headerFallback (doc : HtmlDoc) (d : MDict) : MDict :=
  if !truthyV (dget d (cl "dc.title")) then
    match doc.pageHeader with
    | some t => dset d (cl "dc.title") (.str t)
    | none => d
  else d

/-- One meta tag (lines 224-235): name and content must be truthy; matched
by substring on the name, set only when not already truthy. -/
def metaStep (d : MDict) (m : List Char × List Char) : MDict :=
  if !m.1.isEmpty && !m.2.isEmpty then
    if hasSub m.1 (cl "DC.title") && !truthyV (dget d (cl "dc.title")) then
      dset d (cl "dc.title") (.str m.2)
    else if hasSub m.1 (cl "DC.creator") && !truthyV (dget d (cl "dc.contributor.author")) then
      dset d (cl "dc.contributor.author") (.str m.2)
    else if hasSub m.1 (cl "DC.type") && !truthyV (dget d (cl "dc.type")) then
      dset d (cl "dc.type") (.str m.2)
    else if hasSub m.1 (cl "DC.date") && !truthyV (dget d (cl "dc.date.issued")) then
      dset d (cl "dc.date.issued") (.str m.2)
    else d
  else d

/-- The fixed function-word lists used for abstract language guessing. -/
def englishWords : List (List Char) :=
  [cl "the", cl "and", cl "this", cl "that", cl "with", cl "from"]

def czechWords : List (List Char) :=
  [cl "práce", cl "byla", cl "jsou", cl "této", cl "bylo", cl "mezi"]

/-- Count how many of the given words occur in the text, matched as
`f' {word} ' in f' {text.lower()} '` (lines 250-253). -/
def langCount (ws : List (List Char)) (text : List Char) : Nat :=
  (ws.filter (fun w =>
    hasSub ([' '] ++ text.map pyLower ++ [' ']) ([' '] ++ w ++ [' ']))).length

/-- Abstract classification (lines 238-260): nonempty blocks in order; a
block with strictly more English than Czech function words fills the
English-abstract slot, any other the default slot; first block per slot. -/
def classifyAbstracts (blocks : List (List Char)) :
    Option (List Char) × Option (List Char) :=
  (blocks.filter (fun t => !t.isEmpty)).foldl
    (fun st text =>
      if langCount czechWords text < langCount englishWords text then
        match st.2 with
        | none => (st.1, some text)
        | some _ => st
      else
        match st.1 with
        | none => (some text, st.2)
        | some _ => st)
    (none, none)

/-- PDF link predicate (lines 263-269): a bitstream-handle path with the
download query suffix and none of the supplementary-file markers. -/
def isPdfLink (href : List Char) : Bool :=
  hasSub href (cl "/bitstream/handle/") &&
    (cl "?sequence=-1&isAllowed=y").isSuffixOf href &&
    !(hasSub (href.map pyLower) (cl "posudek") ||
      hasSub (href.map pyLower) (cl "priloha") ||
      hasSub (href.map pyLower) (cl "appendix"))

/-- First matching PDF link.  (The code resolves it against the base URL
with `urljoin`; since every matching href here starts with `/`, that is the
base prefix concatenation below.) -/
def findPdf (links : List (List Char)) : Option (List Char) :=
  (links.find? isPdfLink).map (fun h => cl "https://dspace.cvut.cz" ++ h)

/-- `ThesisDownloader.get_thesis_metadata` (lines 165-293): merge the REST
fields, then — only when the HTML document view responded ok — the table,
header, meta-tag, abstract and link extractions, and build the record.  Any
raised error (`err`) and a non-ok HTML response yield `none`. -/
def get_thesis_metadata (restResp : HttpResp RestDoc) (htmlResp : HttpResp HtmlDoc)
    (handle : List Char) : Option ThesisMetadata :=
  match restResp with
  | .err => none
  | _ =>
    let d1 : MDict :=
      match restResp with
      | .ok rest => restInto [] rest.fields
      | _ => []
    match htmlResp with
    | .err => none
    | .notOk => none
    | .ok doc =>
      let d2 :=
        match doc.table with
        | some rows => rows.foldl tableRow d1
        | none => d1
      let d3 := headerFallback doc d2
      let d4 := doc.metas.foldl metaStep d3
      let ab := classifyAbstracts doc.blocks
      some
        { title := dgetS d4 (cl "dc.title")
          author := dgetS d4 (cl "dc.contributor.author")
          type := dgetS d4 (cl "dc.type")
          year := (dgetS d4 (cl "dc.date.issued")).take 4
          handle := some handle
          abstract := ab.1
          abstract_en := ab.2
          keywords := (dget d4 (cl "dc.subject")).getD (.lst [])
          keywords_en := (dget d4 (cl "dc.subject.en")).getD (.lst [])
          department := dgetS d4 (cl "dc.publisher")
          supervisor := dgetS d4 (cl "dc.contributor.advisor")
          language := dgetS d4 (cl "dc.language.iso")
          url := cl "https://dspace.cvut.cz/handle/" ++ handle
          pdf_url := findPdf doc.links }

/-! ## Claim theorems: record store, batch driver, fetcher, last name -/

/-- The record-list-side statement of the spec's last-name rule: split on
whitespace; with two or more tokens, the first token when it starts with an
uppercase letter, otherwise the last token; with exactly one token that
token; empty author gives the empty string. -/
def specLastName (author : List Char) : List Char :=
  match splitWs author with
  | [] => []
  | [t] => t
  | t :: rest => if startsUpper t then t else (t :: rest).getLastD []

/-- Claim C4: last-name extraction agrees, on every author string, with the
spec's rule, and yields "Novák" for "Novák Jan" and "novak" for
"jan novak". -/
theorem last_name_extraction_spec :
    (∀ author, extractLastName author = specLastName author) ∧
    extractLastName (cl "Novák Jan") = cl "Novák" ∧
    extractLastName (cl "jan novak") = cl "novak" := by
  refine ⟨fun author => ?_, by decide, by decide⟩
  unfold extractLastName specLastName
  cases h : splitWs author with
  | nil => simp
  | cons p ps =>
    cases ps with
    | nil => simp
    | cons q qs => simp [List.length_cons]

/-- Claim C10: `get_thesis_metadata` yields no metadata whenever the HTML
document-view request does not succeed — whatever the structured detail
endpoint returned (including a successful response with field values), and
also when the HTML request itself raises. -/
theorem metadata_requires_html_success :
    (∀ (rest : HttpResp RestDoc) (handle : List Char),
        get_thesis_metadata rest HttpResp.notOk handle = none) ∧
    (∀ (rest : HttpResp RestDoc) (handle : List Char),
        get_thesis_metadata rest HttpResp.err handle = none) := by
  constructor <;> intro rest handle <;> cases rest <;> rfl

/-- Claim C8: a record whose year parses as an integer strictly beyond the
current calendar year is passed through with title, author, type, year and
handle unchanged, and with no resolver call, no fetcher call, and no
metadata saved. -/
theorem future_year_passthrough
    (resolve : List Char → List Char → Option (List Char))
    (fetch : List Char → Option ThesisMetadata) (currentYear : Int)
    (r : ThesisRec) (y : Int) (hy : pyInt r.year = some y)
    (hfut : currentYear < y) :
    processRecord resolve fetch currentYear r = ⟨r, 0, 0, none⟩ := by
  unfold processRecord
  rw [hy]
  simp [hfut]

/-- A concrete future-year record for the witness below. -/
def futureRec : ThesisRec := ⟨cl "Topic", cl "Jan Novak", cl "BP", cl "2027", none⟩

/-- Witness for `future_year_passthrough` at year 2027 against calendar
year 2026. -/
theorem future_year_passthrough_witness :
    processRecord (fun _ _ => none) (fun _ => none) 2026 futureRec =
      ⟨futureRec, 0, 0, none⟩ :=
  future_year_passthrough (fun _ _ => none) (fun _ => none) 2026 futureRec 2027
    (by decide) (by decide)

/-- A record whose title contains an embedded comma, with a handle. -/
def commaRec : ThesisRec :=
  ⟨cl "Analysis of X, Extended", cl "Jan Novak", cl "BP", cl "2020",
    some (cl "10467/99")⟩

/-- Claim C1 fails on the code: saving `commaRec` and re-parsing the file
keeps title, author and handle but returns the original year as the type
and the original handle as the year. -/
theorem parse_save_roundtrip_failure :
    parse_theses_file (save_theses_file [commaRec]) =
      [⟨cl "Analysis of X, Extended", cl "Jan Novak", cl "2020",
        cl "10467/99", some (cl "10467/99")⟩] ∧
    parse_theses_file (save_theses_file [commaRec]) ≠ [commaRec] := by
  constructor
  · decide
  · decide

/-! ## Similarity scorer: reflexivity, the both-empty convention, asymmetry -/

theorem runLen_self (t : List Char) : runLen t t = t.length := by
  induction t with
  | nil => rfl
  | cons c cs ih => simp [runLen, ih]

theorem runLen_le_left (a : List Char) : ∀ b, runLen a b ≤ a.length := by
  induction a with
  | nil => intro b; cases b <;> simp [runLen]
  | cons c cs ih =>
    intro b
    cases b with
    | nil => simp [runLen]
    | cons d ds =>
      simp only [runLen, List.length_cons]
      split
      · exact Nat.succ_le_succ (ih ds)
      · exact Nat.zero_le _

theorem foldl_fixed {α β : Type} (f : β → α → β) (b : β) :
    ∀ l : List α, (∀ x ∈ l, f b x = b) → l.foldl f b = b := by
  intro l
  induction l with
  | nil => intro _; rfl
  | cons x xs ih =>
    intro h
    rw [List.foldl_cons, h x (by simp)]
    exact ih (fun z hz => h z (by simp [hz]))

theorem foldl_init_then_fixed {α β : Type} (f : β → α → β) (b c : β) (x : α)
    (l : List α) (h1 : f b x = c) (h2 : ∀ y ∈ l, f c y = c) :
    (x :: l).foldl f b = c := by
  rw [List.foldl_cons, h1]
  exact foldl_fixed f c l h2

theorem flmStep_keep {a b : List Char} {bf : Nat × Nat × Nat} {i j : Nat}
    (h : runLen (a.drop i) (b.drop j) ≤ bf.2.2) : flmStep a b bf i j = bf := by
  unfold flmStep
  simp [Nat.not_lt.mpr h]

theorem flm_self (t : List Char) (ht : t ≠ []) : flm t t = (0, 0, t.length) := by
  obtain ⟨n, hn⟩ : ∃ n, t.length = n + 1 := by
    cases t with
    | nil => exact absurd rfl ht
    | cons c cs => exact ⟨cs.length, rfl⟩
  have hkeep : ∀ i j : Nat, flmStep t t (0, 0, t.length) i j = (0, 0, t.length) := by
    intro i j
    apply flmStep_keep
    calc runLen (t.drop i) (t.drop j) ≤ (t.drop i).length := runLen_le_left _ _
      _ ≤ t.length := by simp
  have hstep0 : flmStep t t (0, 0, 0) 0 0 = (0, 0, t.length) := by
    unfold flmStep
    simp [runLen_self, hn]
  obtain ⟨L, hr⟩ : ∃ L, List.range t.length = 0 :: L := by
    rw [hn, List.range_succ_eq_map]
    exact ⟨_, rfl⟩
  unfold flm
  rw [hr]
  refine foldl_init_then_fixed _ _ _ _ _ ?_ ?_
  · exact foldl_init_then_fixed _ _ _ _ _ hstep0 (fun j _ => hkeep 0 j)
  · intro i _
    exact foldl_fixed _ _ _ (fun j _ => hkeep i j)

theorem matchSumF_nil (fuel : Nat) : matchSumF fuel [] [] = 0 := by
  cases fuel with
  | zero => rfl
  | succ m => rfl

theorem foldl_keep {α β : Type} (P : β → Prop) (f : β → α → β) :
    ∀ (l : List α) (b : β), P b → (∀ x ∈ l, ∀ y, P y → P (f y x)) →
      P (l.foldl f b) := by
  intro l
  induction l with
  | nil => intro b hb _; exact hb
  | cons x xs ih =>
    intro b hb hf
    exact ih (f b x) (hf x (by simp) b hb) (fun z hz y hy => hf z (by simp [hz]) y hy)

theorem runLen_le_right (a : List Char) : ∀ b, runLen a b ≤ b.length := by
  induction a with
  | nil => intro b; cases b <;> simp [runLen]
  | cons c cs ih =>
    intro b
    cases b with
    | nil => simp [runLen]
    | cons d ds =>
      simp only [runLen, List.length_cons]
      split
      · exact Nat.succ_le_succ (ih ds)
      · exact Nat.zero_le _

theorem flm_bounds (a b : List Char) :
    (flm a b).1 + (flm a b).2.2 ≤ a.length ∧
      (flm a b).2.1 + (flm a b).2.2 ≤ b.length := by
  unfold flm
  refine foldl_keep
    (fun (best : Nat × Nat × Nat) =>
      best.1 + best.2.2 ≤ a.length ∧ best.2.1 + best.2.2 ≤ b.length)
    _ _ _ (by simp) ?_
  intro i hi best hbest
  refine foldl_keep
    (fun (bf : Nat × Nat × Nat) =>
      bf.1 + bf.2.2 ≤ a.length ∧ bf.2.1 + bf.2.2 ≤ b.length)
    _ _ _ hbest ?_
  intro j hj bf hbf
  unfold flmStep
  simp only []
  split
  · constructor
    · calc i + runLen (a.drop i) (b.drop j) ≤ i + (a.drop i).length :=
          Nat.add_le_add_left (runLen_le_left _ _) _
        _ ≤ a.length := by
          have := List.mem_range.mp hi
          simp only [List.length_drop]
          omega
    · calc j + runLen (a.drop i) (b.drop j) ≤ j + (b.drop j).length :=
          Nat.add_le_add_left (runLen_le_right _ _) _
        _ ≤ b.length := by
          have := List.mem_range.mp hj
          simp only [List.length_drop]
          omega
  · exact hbf

theorem matchSumF_irrel :
    ∀ (n fuel1 fuel2 : Nat) (a b : List Char), a.length + b.length ≤ n →
      n < fuel1 → n < fuel2 → matchSumF fuel1 a b = matchSumF fuel2 a b := by
  intro n
  induction n with
  | zero =>
    intro fuel1 fuel2 a b hlen _ _
    have ha : a = [] := by
      cases a with
      | nil => rfl
      | cons x xs => simp at hlen
    have hb : b = [] := by
      cases b with
      | nil => rfl
      | cons x xs => simp at hlen
    subst ha; subst hb
    rw [matchSumF_nil, matchSumF_nil]
  | succ n ih =>
    intro fuel1 fuel2 a b hlen h1 h2
    obtain ⟨f1, rfl⟩ : ∃ f1, fuel1 = f1 + 1 := ⟨fuel1 - 1, by omega⟩
    obtain ⟨f2, rfl⟩ : ∃ f2, fuel2 = f2 + 1 := ⟨fuel2 - 1, by omega⟩
    obtain ⟨hba, hbb⟩ := flm_bounds a b
    simp only [matchSumF]
    split
    · rfl
    · rename_i hk
      have hk1 : 1 ≤ (flm a b).2.2 := by omega
      have hlt1 : (a.take (flm a b).1).length + (b.take (flm a b).2.1).length ≤ n := by
        simp only [List.length_take]
        omega
      have hlt2 : (a.drop ((flm a b).1 + (flm a b).2.2)).length +
          (b.drop ((flm a b).2.1 + (flm a b).2.2)).length ≤ n := by
        simp only [List.length_drop]
        omega
      rw [ih f1 f2 _ _ hlt1 (by omega) (by omega),
        ih f1 f2 _ _ hlt2 (by omega) (by omega)]

/-- The default fuel of `matchSum` is ample: any fuel exceeding
`a.length + b.length` computes the same total, so the fuel never cuts the
recursion short. -/
theorem matchSumF_fuel_ample (fuel : Nat) (a b : List Char)
    (h : a.length + b.length < fuel) : matchSumF fuel a b = matchSum a b :=
  matchSumF_irrel (a.length + b.length) fuel (a.length + b.length + 1) a b
    (le_refl _) h (by omega)

/-- Witness for `matchSumF_fuel_ample` at a concrete pair. -/
theorem matchSumF_fuel_ample_check :
    matchSumF 100 (cl "abcb") (cl "bcab") = matchSum (cl "abcb") (cl "bcab") :=
  matchSumF_fuel_ample 100 (cl "abcb") (cl "bcab") (by decide)

theorem matchSum_self (t : List Char) (ht : t ≠ []) : matchSum t t = t.length := by
  have hlen : t.length ≠ 0 := fun hh => ht (List.length_eq_zero.mp hh)
  unfold matchSum
  rw [matchSumF, flm_self t ht]
  simp only [if_neg hlen, List.take_zero, Nat.zero_add, List.drop_length, matchSumF_nil]
  omega

/-- Claim C5 (amended): the similarity scorer is reflexive
(`score(s,s) = 1`) and scores two empty strings as 1; the symmetry the
claim also asserts fails (see `similarity_not_symmetric`). -/
theorem similarity_reflexive_and_empty :
    (∀ s, _similarity_score s s = 1) ∧ _similarity_score [] [] = 1 := by
  constructor
  · intro s
    show seqRatio (_normalize_text s) (_normalize_text s) = 1
    generalize _normalize_text s = t
    unfold seqRatio
    by_cases h : t = []
    · subst h
      simp
    · have h0 : t.length ≠ 0 := fun hh => h (List.length_eq_zero.mp hh)
      rw [if_neg (by omega), matchSum_self t h, ← two_mul,
        div_self (mul_ne_zero two_ne_zero (Nat.cast_ne_zero.mpr h0))]
  · rfl

unseal Rat.add Rat.mul Rat.inv in
/-- Claim C5 fails as stated: the scorer is not symmetric — the underlying
matcher is order-sensitive, far beyond floating rounding. -/
theorem similarity_not_symmetric :
    _similarity_score (cl "abcb") (cl "bcab") = 1/2 ∧
    _similarity_score (cl "bcab") (cl "abcb") = 3/4 ∧
    _similarity_score (cl "abcb") (cl "bcab") ≠
      _similarity_score (cl "bcab") (cl "abcb") := by
  refine ⟨by decide, by decide, by decide⟩

/-! ## Text normalizer: idempotence -/

theorem splitWsAux_token : ∀ (t rest acc : List Char),
    (∀ c ∈ t, pyIsSpace c = false) →
    splitWsAux (t ++ rest) acc = splitWsAux rest (t.reverse ++ acc) := by
  intro t
  induction t with
  | nil => intro rest acc _; simp
  | cons c cs ih =>
    intro rest acc h
    have hc : pyIsSpace c = false := h c (by simp)
    simp only [List.cons_append, splitWsAux, hc, Bool.false_eq_true, if_false,
      List.append_eq]
    rw [ih rest (c :: acc) (fun z hz => h z (by simp [hz]))]
    simp [List.append_assoc]

theorem splitWsAux_token_nil : ∀ (t acc : List Char),
    (∀ c ∈ t, pyIsSpace c = false) →
    splitWsAux t acc = splitWsAux [] (t.reverse ++ acc) := by
  intro t acc h
  have := splitWsAux_token t [] acc h
  simpa using this

theorem splitWs_joinSep : ∀ ts : List (List Char),
    (∀ t ∈ ts, t ≠ [] ∧ ∀ c ∈ t, pyIsSpace c = false) →
    splitWs (joinSep [' '] ts) = ts := by
  intro ts
  induction ts with
  | nil => intro _; rfl
  | cons t ts2 ih =>
    intro h
    obtain ⟨hne, hns⟩ := h t (by simp)
    have hrev : t.reverse ≠ [] := by simpa using hne
    cases ts2 with
    | nil =>
      show splitWsAux t [] = [t]
      rw [splitWsAux_token_nil t [] hns]
      simp [splitWsAux, List.isEmpty_iff, hrev]
    | cons t2 ts3 =>
      have hj : joinSep [' '] (t :: t2 :: ts3) =
          t ++ (' ' :: joinSep [' '] (t2 :: ts3)) := by
        simp [joinSep]
      show splitWs (joinSep [' '] (t :: t2 :: ts3)) = t :: t2 :: ts3
      rw [hj]
      unfold splitWs
      rw [splitWsAux_token t (' ' :: joinSep [' '] (t2 :: ts3)) [] hns]
      simp only [List.append_nil, splitWsAux, show pyIsSpace ' ' = true from rfl,
        if_true, List.isEmpty_iff, hrev, if_neg hrev, List.reverse_reverse]
      have := ih (fun t' ht' => h t' (List.mem_cons_of_mem _ ht'))
      rw [show splitWsAux (joinSep [' '] (t2 :: ts3)) [] =
        splitWs (joinSep [' '] (t2 :: ts3)) from rfl, this]
      simp

theorem splitWsAux_sound : ∀ (l acc : List Char),
    (∀ c ∈ acc, pyIsSpace c = false) →
    ∀ t ∈ splitWsAux l acc,
      t ≠ [] ∧ ∀ c ∈ t, pyIsSpace c = false ∧ (c ∈ l ∨ c ∈ acc) := by
  intro l
  induction l with
  | nil =>
    intro acc hacc t ht
    by_cases he : acc.isEmpty
    · simp [splitWsAux, he] at ht
    · have ht2 : t = acc.reverse := by simpa [splitWsAux, he] using ht
      subst ht2
      refine ⟨by simpa [List.isEmpty_iff] using he, fun c hc => ?_⟩
      have hcacc : c ∈ acc := by simpa using hc
      exact ⟨hacc c hcacc, Or.inr hcacc⟩
  | cons c0 cs ih =>
    intro acc hacc t ht
    by_cases hs : pyIsSpace c0
    · by_cases he : acc.isEmpty
      · have ht2 : t ∈ splitWsAux cs [] := by simpa [splitWsAux, hs, he] using ht
        obtain ⟨h1, h2⟩ := ih [] (by simp) t ht2
        refine ⟨h1, fun c hc => ⟨(h2 c hc).1, ?_⟩⟩
        rcases (h2 c hc).2 with h | h
        · exact Or.inl (List.mem_cons_of_mem _ h)
        · simp at h
      · have ht2 : t = acc.reverse ∨ t ∈ splitWsAux cs [] := by
          simpa [splitWsAux, hs, he] using ht
        rcases ht2 with ht2 | ht2
        · subst ht2
          refine ⟨by simpa [List.isEmpty_iff] using he, fun c hc => ?_⟩
          have hcacc : c ∈ acc := by simpa using hc
          exact ⟨hacc c hcacc, Or.inr hcacc⟩
        · obtain ⟨h1, h2⟩ := ih [] (by simp) t ht2
          refine ⟨h1, fun c hc => ⟨(h2 c hc).1, ?_⟩⟩
          rcases (h2 c hc).2 with h | h
          · exact Or.inl (List.mem_cons_of_mem _ h)
          · simp at h
    · have hs2 : pyIsSpace c0 = false := by simpa using hs
      have ht2 : t ∈ splitWsAux cs (c0 :: acc) := by simpa [splitWsAux, hs2] using ht
      have hacc2 : ∀ c ∈ (c0 :: acc), pyIsSpace c = false := by
        intro c hc
        rcases List.mem_cons.mp hc with h | h
        · subst h; exact hs2
        · exact hacc c h
      obtain ⟨h1, h2⟩ := ih (c0 :: acc) hacc2 t ht2
      refine ⟨h1, fun c hc => ⟨(h2 c hc).1, ?_⟩⟩
      rcases (h2 c hc).2 with h | h
      · exact Or.inl (List.mem_cons_of_mem _ h)
      · rcases List.mem_cons.mp h with h | h
        · exact Or.inl (by simp [h])
        · exact Or.inr h

theorem mem_joinSep : ∀ (ts : List (List Char)) (c : Char),
    c ∈ joinSep [' '] ts → c = ' ' ∨ ∃ t ∈ ts, c ∈ t := by
  intro ts
  induction ts with
  | nil => intro c hc; simp [joinSep] at hc
  | cons t ts2 ih =>
    intro c hc
    cases ts2 with
    | nil => exact Or.inr ⟨t, by simp, by simpa [joinSep] using hc⟩
    | cons t2 ts3 =>
      simp only [joinSep] at hc
      rcases List.mem_append.mp hc with h | h
      · rcases List.mem_append.mp h with h | h
        · exact Or.inr ⟨t, by simp, h⟩
        · left; simpa using h
      · rcases ih c h with h | ⟨t', ht', hc'⟩
        · exact Or.inl h
        · exact Or.inr ⟨t', List.mem_cons_of_mem _ ht', hc'⟩

theorem pyLower_fixed {c : Char} (h : allowedChar c = true) : pyLower c = c := by
  have h2 : (97 ≤ c.toNat ∧ c.toNat ≤ 122) ∨ (48 ≤ c.toNat ∧ c.toNat ≤ 57) ∨
      (c.toNat = 32 ∨ c.toNat = 9 ∨ c.toNat = 10 ∨ c.toNat = 11 ∨
        c.toNat = 12 ∨ c.toNat = 13) := by
    simpa [allowedChar, pyIsSpace, or_assoc] using h
  unfold pyLower
  rw [if_neg (by omega), if_neg (by omega)]

theorem allowedChar_lt128 {c : Char} (h : allowedChar c = true) : c.toNat < 128 := by
  have h2 : (97 ≤ c.toNat ∧ c.toNat ≤ 122) ∨ (48 ≤ c.toNat ∧ c.toNat ≤ 57) ∨
      (c.toNat = 32 ∨ c.toNat = 9 ∨ c.toNat = 10 ∨ c.toNat = 11 ∨
        c.toNat = 12 ∨ c.toNat = 13) := by
    simpa [allowedChar, pyIsSpace, or_assoc] using h
  omega

theorem map_fixed (f : Char → Char) : ∀ l : List Char,
    (∀ c ∈ l, f c = c) → l.map f = l := by
  intro l
  induction l with
  | nil => intro _; rfl
  | cons c cs ih =>
    intro h
    simp only [List.map_cons, h c (by simp), ih (fun z hz => h z (by simp [hz]))]

theorem filter_fixed (p : Char → Bool) : ∀ l : List Char,
    (∀ c ∈ l, p c = true) → l.filter p = l := by
  intro l
  induction l with
  | nil => intro _; rfl
  | cons c cs ih =>
    intro h
    simp only [List.filter_cons, h c (by simp), if_true,
      ih (fun z hz => h z (by simp [hz]))]

/-- Claim C6: text normalization is idempotent:
`_normalize_text (_normalize_text s) = _normalize_text s` for every `s`. -/
theorem normalize_idempotent (s : List Char) :
    _normalize_text (_normalize_text s) = _normalize_text s := by
  set l3 := ((s.map pyLower).filter (fun c => c.toNat < 128)).filter allowedChar with hl3
  have hnorm : _normalize_text s = joinSep [' '] (splitWs l3) := rfl
  have hl3a : ∀ c ∈ l3, allowedChar c = true := fun c hc => (List.mem_filter.mp hc).2
  have htok := splitWsAux_sound l3 [] (by simp)
  have htok2 : ∀ t ∈ splitWs l3, t ≠ [] ∧ ∀ c ∈ t, pyIsSpace c = false := by
    intro t ht
    obtain ⟨h1, h2⟩ := htok t ht
    exact ⟨h1, fun c hc => (h2 c hc).1⟩
  have hchars : ∀ c ∈ joinSep [' '] (splitWs l3),
      pyLower c = c ∧ c.toNat < 128 ∧ allowedChar c = true := by
    intro c hc
    rcases mem_joinSep _ c hc with h | ⟨t, ht, hct⟩
    · subst h
      exact ⟨rfl, by decide, by decide⟩
    · obtain ⟨_, h2⟩ := htok t ht
      have hcl3 : c ∈ l3 := by
        rcases (h2 c hct).2 with h | h
        · exact h
        · simp at h
      have ha := hl3a c hcl3
      exact ⟨pyLower_fixed ha, allowedChar_lt128 ha, ha⟩
  rw [hnorm]
  show joinSep [' ']
      (splitWs ((((joinSep [' '] (splitWs l3)).map pyLower).filter
        (fun c => c.toNat < 128)).filter allowedChar)) =
    joinSep [' '] (splitWs l3)
  rw [map_fixed _ _ (fun c hc => (hchars c hc).1)]
  rw [filter_fixed _ (joinSep [' '] (splitWs l3))
    (fun c hc => by simpa using (hchars c hc).2.1)]
  rw [filter_fixed _ _ (fun c hc => (hchars c hc).2.2)]
  rw [splitWs_joinSep _ htok2]

/-! ## Resolver invariants: acceptance threshold and best-seen tracking -/

/-- A candidate record carrying a usable identifier. -/
def wfRecord (r : OAIRecord) : Prop :=
  ∃ idt, r.identifier = some idt ∧ idt.isEmpty = false

/-- A feed response whose candidate records all carry usable identifiers. -/
def wfResp : FeedResp → Prop
  | .err => True
  | .ok records _ => ∀ r ∈ records, wfRecord r

theorem creatorScores_eq (lastName : List Char) :
    ∀ (creators : List (List Char)) (cs : List ℚ),
      creatorScoresM lastName creators = some cs →
      cs = creators.map (fun c => _similarity_score lastName ((splitWs c).getLastD [])) := by
  intro creators
  induction creators with
  | nil =>
    intro cs h
    simp only [creatorScoresM, List.mapM_nil, Option.pure_def, Option.some.injEq] at h
    simp [← h]
  | cons c rest ih =>
    intro cs h
    simp only [creatorScoresM, List.mapM_cons, Option.pure_def, Option.bind_eq_bind,
      Option.bind_eq_some, Option.some.injEq] at h
    obtain ⟨q, hq, qs, hqs, hcs⟩ := h
    obtain ⟨t, ht, hqt⟩ := Option.map_eq_some'.mp hq
    have hrest := ih qs hqs
    subst hcs
    have hlast : (splitWs c).getLastD [] = t := by
      rw [List.getLastD_eq_getLast?]
      rw [show (splitWs c).getLast? = some t from ht]
      rfl
    simp only [List.map_cons, hlast, ← hqt, hrest]

theorem scanRecord_cases (title lastName : List Char)
    (st : Option (List Char) × ℚ) (r : OAIRecord)
    (st' : Option (List Char) × ℚ)
    (h : scanRecord title lastName st r = some st') :
    (st' = st ∧ (r.titles = [] ∨ r.creators = [])) ∨
    (st' = st ∧ r.titles ≠ [] ∧ r.creators ≠ [] ∧
      recordScore title lastName r ≤ max st.2 ((4:ℚ)/5)) ∨
    (r.titles ≠ [] ∧ r.creators ≠ [] ∧
      st'.2 = recordScore title lastName r ∧ st.2 < st'.2 ∧ (4:ℚ)/5 < st'.2 ∧
      ((∃ idt, r.identifier = some idt ∧ idt.isEmpty = false ∧ st'.1 = some idt) ∨
        (st'.1 = st.1 ∧ ∀ idt, r.identifier = some idt → idt.isEmpty = true))) := by
  unfold scanRecord at h
  cases hc : creatorScoresM lastName r.creators with
  | none => rw [hc] at h; exact absurd h (by simp)
  | some cs =>
    rw [hc] at h
    simp only [] at h
    have hcs := creatorScores_eq lastName r.creators cs hc
    have hscore : pyMax (r.titles.map (fun t => _similarity_score title t)) * (3/5) +
        pyMax cs * (2/5) = recordScore title lastName r := by
      rw [hcs]; rfl
    by_cases hempty :
        ((r.titles.map (fun t => _similarity_score title t)).isEmpty || cs.isEmpty) = true
    · rw [if_pos hempty] at h
      have hst : st' = st := by simpa using h.symm
      left
      refine ⟨hst, ?_⟩
      rcases Bool.or_eq_true_iff.mp hempty with he | he
      · left
        have := List.isEmpty_iff.mp he
        simpa using List.map_eq_nil_iff.mp this
      · right
        have := List.isEmpty_iff.mp he
        rw [hcs] at this
        exact List.map_eq_nil_iff.mp this
    · rw [if_neg hempty] at h
      have hne : r.titles ≠ [] ∧ r.creators ≠ [] := by
        rw [Bool.or_eq_true_iff] at hempty
        push_neg at hempty
        constructor
        · intro hnil
          exact hempty.1 (by simp [hnil])
        · intro hnil
          refine hempty.2 ?_
          rw [hcs, hnil]
          rfl
      by_cases hguard : st.2 < pyMax (r.titles.map (fun t => _similarity_score title t)) * (3/5) +
          pyMax cs * (2/5) ∧ (4:ℚ)/5 < pyMax (r.titles.map (fun t => _similarity_score title t)) * (3/5) +
          pyMax cs * (2/5)
      · rw [if_pos hguard] at h
        right; right
        cases hid : r.identifier with
        | none =>
          rw [hid] at h
          simp only [] at h
          have hst : st' = (st.1, recordScore title lastName r) := by
            rw [← hscore]; simpa using h.symm
          refine ⟨hne.1, hne.2, by rw [hst], ?_, ?_, Or.inr ⟨by rw [hst], ?_⟩⟩
          · rw [hst]; simpa [hscore] using hguard.1
          · rw [hst]; simpa [hscore] using hguard.2
          · intro idt hidt; exact absurd hidt (by simp)
        | some idt =>
          rw [hid] at h
          simp only [] at h
          by_cases hie : idt.isEmpty
          · rw [if_pos hie] at h
            have hst : st' = (st.1, recordScore title lastName r) := by
              rw [← hscore]; simpa using h.symm
            refine ⟨hne.1, hne.2, by rw [hst], ?_, ?_, Or.inr ⟨by rw [hst], ?_⟩⟩
            · rw [hst]; simpa [hscore] using hguard.1
            · rw [hst]; simpa [hscore] using hguard.2
            · intro idt2 hidt2
              have hq : idt = idt2 := by injection hidt2
              subst hq
              exact hie
          · rw [if_neg hie] at h
            have hst : st' = (some idt, recordScore title lastName r) := by
              rw [← hscore]; simpa using h.symm
            refine ⟨hne.1, hne.2, by rw [hst], ?_, ?_,
              Or.inl ⟨idt, rfl, by simpa using hie, by rw [hst]⟩⟩
            · rw [hst]; simpa [hscore] using hguard.1
            · rw [hst]; simpa [hscore] using hguard.2
      · rw [if_neg hguard] at h
        have hst : st' = st := by simpa using h.symm
        right; left
        refine ⟨hst, hne.1, hne.2, ?_⟩
        rw [← hscore]
        rcases not_and_or.mp hguard with hg | hg
        · exact le_max_of_le_left (not_lt.mp hg)
        · exact le_max_of_le_right (not_lt.mp hg)

theorem scanRecords_found (title lastName : List Char) :
    ∀ (records : List OAIRecord) (st st' : Option (List Char) × ℚ),
      scanRecords title lastName records st = some st' →
      st'.1 = st.1 ∨
        ∃ r ∈ records, r.titles ≠ [] ∧ r.creators ≠ [] ∧
          (4:ℚ)/5 < recordScore title lastName r ∧
          ∃ idt, r.identifier = some idt ∧ idt.isEmpty = false ∧ st'.1 = some idt := by
  intro records
  induction records with
  | nil =>
    intro st st' h
    simp only [scanRecords, Option.some.injEq] at h
    left
    rw [← h]
  | cons r rs ih =>
    intro st st' h
    simp only [scanRecords] at h
    cases hsr : scanRecord title lastName st r with
    | none => rw [hsr] at h; exact absurd h (by simp)
    | some st1 =>
      rw [hsr] at h
      simp only [] at h
      rcases ih st1 st' h with h1 | ⟨r2, hr2, hprops⟩
      · rcases scanRecord_cases title lastName st r st1 hsr with
          ⟨he, _⟩ | ⟨he, _⟩ | ⟨ht, hc2, hs2, _, hthr, hid⟩
        · left; rw [h1, he]
        · left; rw [h1, he]
        · rcases hid with ⟨idt, hidt, hie, h1b⟩ | ⟨hsame, _⟩
          · right
            refine ⟨r, by simp, ht, hc2, by rw [← hs2]; exact hthr, idt, hidt, hie, ?_⟩
            rw [h1, h1b]
          · left; rw [h1, hsame]
      · right; exact ⟨r2, List.mem_cons_of_mem _ hr2, hprops⟩

theorem scanRecords_wf (title lastName : List Char) :
    ∀ (records : List OAIRecord) (st st' : Option (List Char) × ℚ),
      (∀ r ∈ records, wfRecord r) →
      scanRecords title lastName records st = some st' →
      st.2 ≤ st'.2 ∧
      (∀ r ∈ records, r.titles ≠ [] → r.creators ≠ [] →
          recordScore title lastName r ≤ max st'.2 ((4:ℚ)/5)) ∧
      (st' = st ∨
        ∃ r ∈ records, r.titles ≠ [] ∧ r.creators ≠ [] ∧
          st'.2 = recordScore title lastName r ∧ (4:ℚ)/5 < st'.2 ∧
          ∃ idt, r.identifier = some idt ∧ st'.1 = some idt) := by
  intro records
  induction records with
  | nil =>
    intro st st' hwf h
    simp only [scanRecords, Option.some.injEq] at h
    subst h
    exact ⟨le_refl _, by simp, Or.inl rfl⟩
  | cons r rs ih =>
    intro st st' hwf h
    simp only [scanRecords] at h
    cases hsr : scanRecord title lastName st r with
    | none => rw [hsr] at h; exact absurd h (by simp)
    | some st1 =>
      rw [hsr] at h
      simp only [] at h
      obtain ⟨ih1, ih2, ih3⟩ := ih st1 st' (fun r2 hr2 => hwf r2 (List.mem_cons_of_mem _ hr2)) h
      rcases scanRecord_cases title lastName st r st1 hsr with
        ⟨he, hor⟩ | ⟨he, ht, hc2, hbound⟩ | ⟨ht, hc2, hs2, hlt, hthr, hid⟩
      · subst he
        refine ⟨ih1, ?_, ?_⟩
        · intro r2 hr2 hrt hrc
          rcases List.mem_cons.mp hr2 with h2 | h2
          · subst h2
            rcases hor with h3 | h3
            · exact absurd h3 hrt
            · exact absurd h3 hrc
          · exact ih2 r2 h2 hrt hrc
        · rcases ih3 with h3 | ⟨r2, hr2, hprops⟩
          · exact Or.inl h3
          · exact Or.inr ⟨r2, List.mem_cons_of_mem _ hr2, hprops⟩
      · subst he
        refine ⟨ih1, ?_, ?_⟩
        · intro r2 hr2 hrt hrc
          rcases List.mem_cons.mp hr2 with h2 | h2
          · subst h2
            exact le_trans hbound (max_le_max ih1 (le_refl _))
          · exact ih2 r2 h2 hrt hrc
        · rcases ih3 with h3 | ⟨r2, hr2, hprops⟩
          · exact Or.inl h3
          · exact Or.inr ⟨r2, List.mem_cons_of_mem _ hr2, hprops⟩
      · obtain ⟨idt0, hid0, hie0⟩ := hwf r (by simp)
        have hid2 : st1.1 = some idt0 := by
          rcases hid with ⟨idt, hidt, hie, h1b⟩ | ⟨hsame, hall⟩
          · rw [hid0] at hidt
            have hq : idt0 = idt := by injection hidt
            subst hq
            exact h1b
          · exact absurd (hall idt0 hid0) (by simp [hie0])
        refine ⟨le_trans (le_of_lt hlt) ih1, ?_, ?_⟩
        · intro r2 hr2 hrt hrc
          rcases List.mem_cons.mp hr2 with h2 | h2
          · subst h2
            calc recordScore title lastName r2 = st1.2 := hs2.symm
              _ ≤ st'.2 := ih1
              _ ≤ max st'.2 ((4:ℚ)/5) := le_max_left _ _
          · exact ih2 r2 h2 hrt hrc
        · rcases ih3 with h3 | ⟨r2, hr2, hprops⟩
          · subst h3
            exact Or.inr ⟨r, by simp, ht, hc2, hs2, hthr, idt0, hid0, hid2⟩
          · exact Or.inr ⟨r2, List.mem_cons_of_mem _ hr2, hprops⟩

theorem stratStep_stop_found (title lastName : List Char) (tmo : Nat → Bool)
    (cur : FeedResp) (iter cnt : Nat) (seen : List OAIRecord) (res : StratResult)
    (h : stratStep title lastName tmo cur iter cnt seen = .stop res)
    (hd : List Char) (hf : res.found = some hd) :
    ∃ records token st idt, cur = FeedResp.ok records token ∧
      scanRecords title lastName records (none, 0) = some st ∧ st.1 = some idt ∧
      res = ⟨some (handleOf idt), cnt, seen ++ records⟩ := by
  unfold stratStep at h
  by_cases htmo : tmo iter = true
  · rw [if_pos htmo] at h
    injection h with h2
    rw [← h2] at hf
    exact absurd hf (by simp)
  · rw [if_neg htmo] at h
    cases cur with
    | err =>
      simp only [] at h
      injection h with h2
      rw [← h2] at hf
      exact absurd hf (by simp)
    | ok records token =>
      simp only [] at h
      cases hscan : scanRecords title lastName records (none, 0) with
      | none =>
        rw [hscan] at h
        simp only [] at h
        injection h with h2
        rw [← h2] at hf
        exact absurd hf (by simp)
      | some st =>
        rw [hscan] at h
        simp only [] at h
        cases hst1 : st.1 with
        | some idt =>
          rw [hst1] at h
          simp only [] at h
          injection h with h2
          exact ⟨records, token, st, idt, rfl, hscan, hst1, h2.symm⟩
        | none =>
          rw [hst1] at h
          cases token with
          | none =>
            simp only [] at h
            injection h with h2
            rw [← h2] at hf
            exact absurd hf (by simp)
          | some t =>
            simp only [] at h
            by_cases hte : t.isEmpty = true
            · rw [if_pos hte] at h
              injection h with h2
              rw [← h2] at hf
              exact absurd hf (by simp)
            · rw [if_neg hte] at h
              exact absurd h (by simp)

theorem stratStep_next (title lastName : List Char) (tmo : Nat → Bool)
    (cur : FeedResp) (iter cnt : Nat) (seen : List OAIRecord)
    (seen2 : List OAIRecord)
    (h : stratStep title lastName tmo cur iter cnt seen = .next seen2) :
    ∃ records t st, cur = FeedResp.ok records (some t) ∧
      scanRecords title lastName records (none, 0) = some st ∧ st.1 = none ∧
      t.isEmpty = false ∧ tmo iter = false ∧ seen2 = seen ++ records := by
  unfold stratStep at h
  by_cases htmo : tmo iter = true
  · rw [if_pos htmo] at h
    exact absurd h (by simp)
  · rw [if_neg htmo] at h
    cases cur with
    | err => exact absurd h (by simp)
    | ok records token =>
      simp only [] at h
      cases hscan : scanRecords title lastName records (none, 0) with
      | none => rw [hscan] at h; exact absurd h (by simp)
      | some st =>
        rw [hscan] at h
        simp only [] at h
        cases hst1 : st.1 with
        | some idt => rw [hst1] at h; exact absurd h (by simp)
        | none =>
          rw [hst1] at h
          cases token with
          | none => exact absurd h (by simp)
          | some t =>
            simp only [] at h
            by_cases hte : t.isEmpty = true
            · rw [if_pos hte] at h
              exact absurd h (by simp)
            · rw [if_neg hte] at h
              injection h with h2
              exact ⟨records, t, st, rfl, hscan, hst1, by simpa using hte,
                by simpa using htmo, h2.symm⟩

theorem runStratLoop_found (title lastName : List Char) (tmo : Nat → Bool) :
    ∀ (rest : List FeedResp) (cur : FeedResp) (iter cnt : Nat)
      (seen : List OAIRecord) (hd : List Char) (n : Nat) (seen2 : List OAIRecord),
      runStratLoop title lastName tmo cur rest iter cnt seen = ⟨some hd, n, seen2⟩ →
      ∃ r ∈ seen2, r.titles ≠ [] ∧ r.creators ≠ [] ∧
        (4:ℚ)/5 < recordScore title lastName r ∧
        ∃ idt, r.identifier = some idt ∧ idt.isEmpty = false ∧ handleOf idt = hd := by
  intro rest
  induction rest with
  | nil =>
    intro cur iter cnt seen hd n seen2 h
    unfold runStratLoop at h
    cases hstep : stratStep title lastName tmo cur iter cnt seen with
    | stop res =>
      rw [hstep] at h
      simp only [] at h
      obtain ⟨records, token, st, idt, hcur, hscan, hst1, hres⟩ :=
        stratStep_stop_found title lastName tmo cur iter cnt seen res hstep hd
          (by rw [h])
      rw [h] at hres
      simp only [StratResult.mk.injEq, Option.some.injEq] at hres
      obtain ⟨hhd, hcnt, hseen⟩ := hres
      rcases scanRecords_found title lastName records (none, 0) st hscan with
        h1 | ⟨r, hr, ht, hc2, hthr, idt2, hidt2, hie2, hst1b⟩
      · rw [hst1] at h1
        exact absurd h1 (by simp)
      · have hq : idt2 = idt := by
          rw [hst1] at hst1b
          injection hst1b.symm
        subst hq
        exact ⟨r, by rw [hseen]; exact List.mem_append_right _ hr,
          ht, hc2, hthr, idt2, hidt2, hie2, hhd.symm⟩
    | next s2 =>
      rw [hstep] at h
      simp only [] at h
      exact absurd h (by simp)
  | cons r0 rest2 ih =>
    intro cur iter cnt seen hd n seen2 h
    unfold runStratLoop at h
    cases hstep : stratStep title lastName tmo cur iter cnt seen with
    | stop res =>
      rw [hstep] at h
      simp only [] at h
      obtain ⟨records, token, st, idt, hcur, hscan, hst1, hres⟩ :=
        stratStep_stop_found title lastName tmo cur iter cnt seen res hstep hd
          (by rw [h])
      rw [h] at hres
      simp only [StratResult.mk.injEq, Option.some.injEq] at hres
      obtain ⟨hhd, hcnt, hseen⟩ := hres
      rcases scanRecords_found title lastName records (none, 0) st hscan with
        h1 | ⟨r, hr, ht, hc2, hthr, idt2, hidt2, hie2, hst1b⟩
      · rw [hst1] at h1
        exact absurd h1 (by simp)
      · have hq : idt2 = idt := by
          rw [hst1] at hst1b
          injection hst1b.symm
        subst hq
        exact ⟨r, by rw [hseen]; exact List.mem_append_right _ hr,
          ht, hc2, hthr, idt2, hidt2, hie2, hhd.symm⟩
    | next s2 =>
      rw [hstep] at h
      simp only [] at h
      exact ih r0 (iter + 1) (cnt + 1) s2 hd n seen2 h

theorem runStratLoop_max (title lastName : List Char) (tmo : Nat → Bool) :
    ∀ (rest : List FeedResp) (cur : FeedResp) (iter cnt : Nat)
      (seen : List OAIRecord) (hd : List Char) (n : Nat) (seen2 : List OAIRecord),
      wfResp cur → (∀ resp ∈ rest, wfResp resp) →
      (∀ r ∈ seen, r.titles ≠ [] → r.creators ≠ [] →
          recordScore title lastName r ≤ (4:ℚ)/5) →
      runStratLoop title lastName tmo cur rest iter cnt seen = ⟨some hd, n, seen2⟩ →
      ∃ r ∈ seen2, r.titles ≠ [] ∧ r.creators ≠ [] ∧
        (∃ idt, r.identifier = some idt ∧ handleOf idt = hd) ∧
        (4:ℚ)/5 < recordScore title lastName r ∧
        ∀ r2 ∈ seen2, r2.titles ≠ [] → r2.creators ≠ [] →
          recordScore title lastName r2 ≤ recordScore title lastName r := by
  intro rest
  induction rest with
  | nil =>
    intro cur iter cnt seen hd n seen2 hwfc hwfr hpre h
    unfold runStratLoop at h
    cases hstep : stratStep title lastName tmo cur iter cnt seen with
    | stop res =>
      rw [hstep] at h
      simp only [] at h
      obtain ⟨records, token, st, idt, hcur, hscan, hst1, hres⟩ :=
        stratStep_stop_found title lastName tmo cur iter cnt seen res hstep hd
          (by rw [h])
      rw [h] at hres
      simp only [StratResult.mk.injEq, Option.some.injEq] at hres
      obtain ⟨hhd, hcnt, hseen⟩ := hres
      have hwfrec : ∀ r ∈ records, wfRecord r := by
        rw [hcur] at hwfc
        exact hwfc
      obtain ⟨hle, hbound, hdisj⟩ :=
        scanRecords_wf title lastName records (none, 0) st hwfrec hscan
      rcases hdisj with hst | ⟨r, hr, ht, hc2, hs2, hthr, idt2, hidt2, hst1b⟩
      · rw [hst] at hst1
        exact absurd hst1 (by simp)
      · have hq : idt2 = idt := by
          rw [hst1] at hst1b
          injection hst1b.symm
        subst hq
        refine ⟨r, by rw [hseen]; exact List.mem_append_right _ hr, ht, hc2,
          ⟨idt2, hidt2, hhd.symm⟩, by rw [← hs2]; exact hthr, ?_⟩
        intro r2 hr2 hrt hrc
        rw [hseen] at hr2
        rcases List.mem_append.mp hr2 with h2 | h2
        · calc recordScore title lastName r2 ≤ (4:ℚ)/5 := hpre r2 h2 hrt hrc
            _ ≤ st.2 := le_of_lt hthr
            _ = recordScore title lastName r := hs2
        · calc recordScore title lastName r2 ≤ max st.2 ((4:ℚ)/5) :=
              hbound r2 h2 hrt hrc
            _ = st.2 := max_eq_left (le_of_lt hthr)
            _ = recordScore title lastName r := hs2
    | next s2 =>
      rw [hstep] at h
      simp only [] at h
      exact absurd h (by simp)
  | cons r0 rest2 ih =>
    intro cur iter cnt seen hd n seen2 hwfc hwfr hpre h
    unfold runStratLoop at h
    cases hstep : stratStep title lastName tmo cur iter cnt seen with
    | stop res =>
      rw [hstep] at h
      simp only [] at h
      obtain ⟨records, token, st, idt, hcur, hscan, hst1, hres⟩ :=
        stratStep_stop_found title lastName tmo cur iter cnt seen res hstep hd
          (by rw [h])
      rw [h] at hres
      simp only [StratResult.mk.injEq, Option.some.injEq] at hres
      obtain ⟨hhd, hcnt, hseen⟩ := hres
      have hwfrec : ∀ r ∈ records, wfRecord r := by
        rw [hcur] at hwfc
        exact hwfc
      obtain ⟨hle, hbound, hdisj⟩ :=
        scanRecords_wf title lastName records (none, 0) st hwfrec hscan
      rcases hdisj with hst | ⟨r, hr, ht, hc2, hs2, hthr, idt2, hidt2, hst1b⟩
      · rw [hst] at hst1
        exact absurd hst1 (by simp)
      · have hq : idt2 = idt := by
          rw [hst1] at hst1b
          injection hst1b.symm
        subst hq
        refine ⟨r, by rw [hseen]; exact List.mem_append_right _ hr, ht, hc2,
          ⟨idt2, hidt2, hhd.symm⟩, by rw [← hs2]; exact hthr, ?_⟩
        intro r2 hr2 hrt hrc
        rw [hseen] at hr2
        rcases List.mem_append.mp hr2 with h2 | h2
        · calc recordScore title lastName r2 ≤ (4:ℚ)/5 := hpre r2 h2 hrt hrc
            _ ≤ st.2 := le_of_lt hthr
            _ = recordScore title lastName r := hs2
        · calc recordScore title lastName r2 ≤ max st.2 ((4:ℚ)/5) :=
              hbound r2 h2 hrt hrc
            _ = st.2 := max_eq_left (le_of_lt hthr)
            _ = recordScore title lastName r := hs2
    | next s2 =>
      rw [hstep] at h
      simp only [] at h
      obtain ⟨records, t, st, hcur, hscan, hst1, hte, htmo, hs2eq⟩ :=
        stratStep_next title lastName tmo cur iter cnt seen s2 hstep
      have hwfrec : ∀ r ∈ records, wfRecord r := by
        rw [hcur] at hwfc
        exact hwfc
      obtain ⟨hle, hbound, hdisj⟩ :=
        scanRecords_wf title lastName records (none, 0) st hwfrec hscan
      have hst0 : st = (none, 0) := by
        rcases hdisj with hst | ⟨r, hr, ht, hc2, hs2b, hthr, idt2, hidt2, hst1b⟩
        · exact hst
        · rw [hst1] at hst1b
          exact absurd hst1b (by simp)
      have hpre2 : ∀ r ∈ s2, r.titles ≠ [] → r.creators ≠ [] →
          recordScore title lastName r ≤ (4:ℚ)/5 := by
        intro r2 hr2 hrt hrc
        rw [hs2eq] at hr2
        rcases List.mem_append.mp hr2 with h2 | h2
        · exact hpre r2 h2 hrt hrc
        · have hb := hbound r2 h2 hrt hrc
          rw [hst0] at hb
          refine le_trans hb (le_of_eq ?_)
          show max (0:ℚ) (4/5) = 4/5
          exact max_eq_right (by norm_num)
      exact ih r0 (iter + 1) (cnt + 1) s2 hd n seen2
        (hwfr r0 (by simp)) (fun resp hresp => hwfr resp (List.mem_cons_of_mem _ hresp))
        hpre2 h

/-! ## Claim theorems: resolver -/

/-- Claim C2 (amended): provided every candidate record carries a nonempty
identifier, the candidate whose handle a strategy returns has the maximum
combined score among all candidates seen in every batch of that strategy so
far — not only those in the current batch. -/
theorem best_candidate_max_across_batches
    (title lastName : List Char) (tmo : Nat → Bool) (resps : List FeedResp)
    (hd : List Char) (n : Nat) (seen : List OAIRecord)
    (hwf : ∀ resp ∈ resps, wfResp resp)
    (hrun : runStrategy title lastName tmo resps = ⟨some hd, n, seen⟩) :
    ∃ r ∈ seen, r.titles ≠ [] ∧ r.creators ≠ [] ∧
      (∃ idt, r.identifier = some idt ∧ handleOf idt = hd) ∧
      ∀ r2 ∈ seen, r2.titles ≠ [] → r2.creators ≠ [] →
        recordScore title lastName r2 ≤ recordScore title lastName r := by
  cases resps with
  | nil => exact absurd hrun (by simp [runStrategy])
  | cons r0 rest =>
    have h : runStratLoop title lastName tmo r0 rest 0 1 [] = ⟨some hd, n, seen⟩ :=
      hrun
    obtain ⟨r, hr, ht, hc2, hid, hthr, hmax⟩ :=
      runStratLoop_max title lastName tmo rest r0 0 1 [] hd n seen
        (hwf r0 (by simp)) (fun resp hresp => hwf resp (List.mem_cons_of_mem _ hresp))
        (by simp) h
    exact ⟨r, hr, ht, hc2, hid, hmax⟩

/-- The accepted candidate of the witness run below. -/
def recW : OAIRecord := ⟨[cl "abcdex"], [cl "novak"], some (cl "oai:x/10467/500")⟩

unseal Rat.add Rat.mul Rat.inv in
/-- Witness for `best_candidate_max_across_batches` on a one-batch feed. -/
theorem best_candidate_max_across_batches_witness :
    ∃ r ∈ [recW], r.titles ≠ [] ∧ r.creators ≠ [] ∧
      (∃ idt, r.identifier = some idt ∧ handleOf idt = cl "10467/500") ∧
      ∀ r2 ∈ [recW], r2.titles ≠ [] → r2.creators ≠ [] →
        recordScore (cl "abcdef") (cl "novak") r2 ≤
          recordScore (cl "abcdef") (cl "novak") r :=
  best_candidate_max_across_batches (cl "abcdef") (cl "novak") (fun _ => false)
    [FeedResp.ok [recW] none] (cl "10467/500") 1 [recW]
    (by
      intro resp hresp
      rw [List.mem_singleton] at hresp
      subst hresp
      intro r hr
      rw [List.mem_singleton] at hr
      subst hr
      exact ⟨cl "oai:x/10467/500", rfl, rfl⟩)
    (by decide)

/-- Candidate with an identifier, combined score 0.85. -/
def recA : OAIRecord := ⟨[cl "abcdefwxyz"], [cl "novak"], some (cl "oai:dspace:x/10467/111")⟩

/-- Candidate without an identifier, combined score 0.9. -/
def recB : OAIRecord := ⟨[cl "abcdex"], [cl "novak"], none⟩

unseal Rat.add Rat.mul Rat.inv in
/-- Claim C2 fails as stated: when a higher-scoring candidate lacks an
identifier, the resolver still bumps `best_score` with it but returns the
lower-scoring candidate's handle — the accepted candidate does not have the
maximum combined score among all candidates seen. -/
theorem best_candidate_not_max_without_identifier :
    runStrategy (cl "abcdef") (cl "novak") (fun _ => false)
        [FeedResp.ok [recA, recB] none] =
      ⟨some (cl "10467/111"), 1, [recA, recB]⟩ ∧
    recordScore (cl "abcdef") (cl "novak") recA <
      recordScore (cl "abcdef") (cl "novak") recB := by
  refine ⟨by decide, by decide⟩

/-- Candidate scoring exactly 0.75 (title ratio 7/12, creator ratio 1). -/
def recP : OAIRecord := ⟨[cl "abcdefg0123456789"], [cl "novak"], some (cl "x/10467/751")⟩

/-- Candidate scoring exactly 0.82 (title ratio 7/10, creator ratio 1). -/
def recQ : OAIRecord := ⟨[cl "abcdefg012345"], [cl "novak"], some (cl "x/10467/821")⟩

/-- Candidate scoring exactly 0.8 (title ratio 2/3, creator ratio 1). -/
def recE : OAIRecord := ⟨[cl "abcdxy"], [cl "novak"], some (cl "x/10467/800")⟩

unseal Rat.add Rat.mul Rat.inv in
/-- Claim C3 (amended): a strategy returns a candidate's handle only when
that candidate's combined score (0.6·title + 0.4·creator) is strictly
greater than 0.8 and — provided every scored candidate carries a nonempty
identifier — is the maximum over all candidates considered in the strategy;
with candidates scoring 0.75 and 0.82 the 0.82 candidate's handle is
returned, and with a maximum score of exactly 0.8 no match is returned. -/
theorem accepted_handle_threshold_and_max :
    (∀ (title lastName : List Char) (tmo : Nat → Bool) (resps : List FeedResp)
        (hd : List Char) (n : Nat) (seen : List OAIRecord),
        runStrategy title lastName tmo resps = ⟨some hd, n, seen⟩ →
        ∃ r ∈ seen, r.titles ≠ [] ∧ r.creators ≠ [] ∧
          (4:ℚ)/5 < recordScore title lastName r ∧
          ∃ idt, r.identifier = some idt ∧ handleOf idt = hd) ∧
    (∀ (title lastName : List Char) (tmo : Nat → Bool) (resps : List FeedResp)
        (hd : List Char) (n : Nat) (seen : List OAIRecord),
        (∀ resp ∈ resps, wfResp resp) →
        runStrategy title lastName tmo resps = ⟨some hd, n, seen⟩ →
        ∃ r ∈ seen, (∃ idt, r.identifier = some idt ∧ handleOf idt = hd) ∧
          ∀ r2 ∈ seen, r2.titles ≠ [] → r2.creators ≠ [] →
            recordScore title lastName r2 ≤ recordScore title lastName r) ∧
    (runStrategy (cl "abcdefg") (cl "novak") (fun _ => false)
        [FeedResp.ok [recP, recQ] none] =
        ⟨some (cl "10467/821"), 1, [recP, recQ]⟩ ∧
      recordScore (cl "abcdefg") (cl "novak") recP = 3/4 ∧
      recordScore (cl "abcdefg") (cl "novak") recQ = 41/50) ∧
    (recordScore (cl "abcdef") (cl "novak") recE = 4/5 ∧
      runStrategy (cl "abcdef") (cl "novak") (fun _ => false)
        [FeedResp.ok [recE] none] = ⟨none, 1, [recE]⟩) := by
  refine ⟨?_, ?_, ⟨by decide, by decide, by decide⟩, ⟨by decide, by decide⟩⟩
  · intro title lastName tmo resps hd n seen hrun
    cases resps with
    | nil => exact absurd hrun (by simp [runStrategy])
    | cons r0 rest =>
      have h : runStratLoop title lastName tmo r0 rest 0 1 [] = ⟨some hd, n, seen⟩ :=
        hrun
      obtain ⟨r, hr, ht, hc2, hthr, idt, hidt, hie, hh⟩ :=
        runStratLoop_found title lastName tmo rest r0 0 1 [] hd n seen h
      exact ⟨r, hr, ht, hc2, hthr, idt, hidt, hh⟩
  · intro title lastName tmo resps hd n seen hwf hrun
    cases resps with
    | nil => exact absurd hrun (by simp [runStrategy])
    | cons r0 rest =>
      have h : runStratLoop title lastName tmo r0 rest 0 1 [] = ⟨some hd, n, seen⟩ :=
        hrun
      obtain ⟨r, hr, ht, hc2, hid, hthr, hmax⟩ :=
        runStratLoop_max title lastName tmo rest r0 0 1 [] hd n seen
          (hwf r0 (by simp)) (fun resp hresp => hwf resp (List.mem_cons_of_mem _ hresp))
          (by simp) h
      exact ⟨r, hr, hid, hmax⟩

unseal Rat.add Rat.mul Rat.inv in
/-- Witness for the first part of `accepted_handle_threshold_and_max` at
the 0.75/0.82 feed. -/
theorem accepted_handle_threshold_and_max_witness :
    ∃ r ∈ [recP, recQ], r.titles ≠ [] ∧ r.creators ≠ [] ∧
      (4:ℚ)/5 < recordScore (cl "abcdefg") (cl "novak") r ∧
      ∃ idt, r.identifier = some idt ∧ handleOf idt = cl "10467/821" :=
  accepted_handle_threshold_and_max.1 (cl "abcdefg") (cl "novak") (fun _ => false)
    [FeedResp.ok [recP, recQ] none] (cl "10467/821") 1 [recP, recQ] (by decide)

/-- Candidate with an identifier, combined score 0.85 (creator petrov). -/
def recC : OAIRecord := ⟨[cl "abcdefwxyz"], [cl "petrov"], some (cl "hdl:x/10467/222")⟩

/-- Candidate without an identifier, combined score 0.9 (creator petrov). -/
def recD : OAIRecord := ⟨[cl "abcdex"], [cl "petrov"], none⟩

unseal Rat.add Rat.mul Rat.inv in
/-- Claim C3 fails as stated: the returned handle's candidate need not have
the maximum combined score among all candidates considered — a
higher-scoring candidate without an identifier is considered and raises
`best_score` but cannot become the match. -/
theorem accepted_handle_not_max_counterexample :
    runStrategy (cl "abcdef") (cl "petrov") (fun _ => false)
        [FeedResp.ok [recC, recD] none] =
      ⟨some (cl "10467/222"), 1, [recC, recD]⟩ ∧
    recordScore (cl "abcdef") (cl "petrov") recC <
      recordScore (cl "abcdef") (cl "petrov") recD := by
  refine ⟨by decide, by decide⟩

/-- Claim C7: with a feed returning a (nonempty) continuation token on
three consecutive responses and then none, no batch producing an accepted
candidate, and the time budget never exceeded, the strategy issues exactly
four feed requests (and finds no handle). -/
theorem pagination_four_requests
    (title lastName t0 t1 t2 : List Char) (b0 b1 b2 b3 : List OAIRecord)
    (tmo : Nat → Bool) (s0 s1 s2 s3 : ℚ)
    (ht0 : t0.isEmpty = false) (ht1 : t1.isEmpty = false) (ht2 : t2.isEmpty = false)
    (htm : ∀ i, tmo i = false)
    (h0 : scanRecords title lastName b0 (none, 0) = some (none, s0))
    (h1 : scanRecords title lastName b1 (none, 0) = some (none, s1))
    (h2 : scanRecords title lastName b2 (none, 0) = some (none, s2))
    (h3 : scanRecords title lastName b3 (none, 0) = some (none, s3)) :
    runStrategy title lastName tmo
        [FeedResp.ok b0 (some t0), FeedResp.ok b1 (some t1),
          FeedResp.ok b2 (some t2), FeedResp.ok b3 none] =
      ⟨none, 4, b0 ++ b1 ++ b2 ++ b3⟩ := by
  have hstep : ∀ (b : List OAIRecord) (t : List Char) (s : ℚ) (iter cnt : Nat)
      (seen : List OAIRecord), t.isEmpty = false →
      scanRecords title lastName b (none, 0) = some (none, s) →
      stratStep title lastName tmo (FeedResp.ok b (some t)) iter cnt seen =
        .next (seen ++ b) := by
    intro b t s iter cnt seen hte hscan
    unfold stratStep
    rw [if_neg (by simp [htm iter])]
    simp only []
    rw [hscan]
    simp [hte]
  have hstep3 : ∀ (iter cnt : Nat) (seen : List OAIRecord),
      stratStep title lastName tmo (FeedResp.ok b3 none) iter cnt seen =
        .stop ⟨none, cnt, seen ++ b3⟩ := by
    intro iter cnt seen
    unfold stratStep
    rw [if_neg (by simp [htm iter])]
    simp only []
    rw [h3]
  show runStratLoop title lastName tmo (FeedResp.ok b0 (some t0))
      [FeedResp.ok b1 (some t1), FeedResp.ok b2 (some t2), FeedResp.ok b3 none]
      0 1 [] = ⟨none, 4, b0 ++ b1 ++ b2 ++ b3⟩
  unfold runStratLoop
  rw [hstep b0 t0 s0 0 1 [] ht0 h0]
  show runStratLoop title lastName tmo (FeedResp.ok b1 (some t1))
      [FeedResp.ok b2 (some t2), FeedResp.ok b3 none] 1 2 ([] ++ b0) =
    ⟨none, 4, b0 ++ b1 ++ b2 ++ b3⟩
  unfold runStratLoop
  rw [hstep b1 t1 s1 1 2 ([] ++ b0) ht1 h1]
  show runStratLoop title lastName tmo (FeedResp.ok b2 (some t2))
      [FeedResp.ok b3 none] 2 3 ([] ++ b0 ++ b1) = ⟨none, 4, b0 ++ b1 ++ b2 ++ b3⟩
  unfold runStratLoop
  rw [hstep b2 t2 s2 2 3 ([] ++ b0 ++ b1) ht2 h2]
  show runStratLoop title lastName tmo (FeedResp.ok b3 none) [] 3 4
      ([] ++ b0 ++ b1 ++ b2) = ⟨none, 4, b0 ++ b1 ++ b2 ++ b3⟩
  unfold runStratLoop
  rw [hstep3 3 4 ([] ++ b0 ++ b1 ++ b2)]
  simp

/-- Witness for `pagination_four_requests` on empty batches. -/
theorem pagination_four_requests_witness :
    runStrategy (cl "t") (cl "n") (fun _ => false)
        [FeedResp.ok [] (some (cl "x")), FeedResp.ok [] (some (cl "x")),
          FeedResp.ok [] (some (cl "x")), FeedResp.ok [] none] =
      ⟨none, 4, []⟩ :=
  pagination_four_requests (cl "t") (cl "n") (cl "x") (cl "x") (cl "x")
    [] [] [] [] (fun _ => false) 0 0 0 0 rfl rfl rfl (fun _ => rfl)
    rfl rfl rfl rfl

/-- Claim C9: a strategy whose initial request fails is skipped and the
resolver moves on to the next strategy; and when every strategy finishes
without an accepted match, `discover_handle` returns `none` — the model is
a total function, so no exception can propagate. -/
theorem resolver_error_fallback_and_exhaustion :
    (∀ (author title : List Char) (rest : List FeedResp) (tmo : Nat → Bool)
        (strategies : List Strategy),
        discover_handle author title (⟨FeedResp.err :: rest, tmo⟩ :: strategies) =
          discover_handle author title strategies) ∧
    (∀ (author title : List Char) (strategies : List Strategy),
        (∀ s ∈ strategies,
            (runStrategy title (extractLastName author) s.tmo s.resps).found = none) →
        discover_handle author title strategies = none) := by
  constructor
  · intro author title rest tmo strategies
    have hrun : (runStrategy title (extractLastName author) tmo
        (FeedResp.err :: rest)).found = none := by
      show (runStratLoop title (extractLastName author) tmo FeedResp.err rest
        0 1 []).found = none
      unfold runStratLoop
      have hstep : stratStep title (extractLastName author) tmo FeedResp.err
          0 1 [] = .stop ⟨none, 1, []⟩ := by
        unfold stratStep
        by_cases htmo : tmo 0 = true
        · rw [if_pos htmo]
        · rw [if_neg htmo]
      rw [hstep]
    have heq : discoverGo title (extractLastName author)
        (⟨FeedResp.err :: rest, tmo⟩ :: strategies) =
        match (runStrategy title (extractLastName author) tmo
            (FeedResp.err :: rest)).found with
        | some h => some h
        | none => discoverGo title (extractLastName author) strategies := rfl
    show discoverGo title (extractLastName author)
        (⟨FeedResp.err :: rest, tmo⟩ :: strategies) =
      discoverGo title (extractLastName author) strategies
    rw [heq, hrun]
  · intro author title strategies
    induction strategies with
    | nil => intro _; rfl
    | cons s ss ih =>
      intro h
      have heq : discoverGo title (extractLastName author) (s :: ss) =
          match (runStrategy title (extractLastName author) s.tmo s.resps).found with
          | some h => some h
          | none => discoverGo title (extractLastName author) ss := rfl
      show discoverGo title (extractLastName author) (s :: ss) = none
      rw [heq, h s (by simp)]
      exact ih (fun s2 hs2 => h s2 (List.mem_cons_of_mem _ hs2))

/-- Witness for `resolver_error_fallback_and_exhaustion`: one exhausted
strategy (an empty batch, no token) yields no handle. -/
theorem resolver_exhaustion_witness :
    discover_handle (cl "a") (cl "t")
        [⟨[FeedResp.ok [] none], fun _ => false⟩] = none :=
  resolver_error_fallback_and_exhaustion.2 (cl "a") (cl "t")
    [⟨[FeedResp.ok [] none], fun _ => false⟩]
    (by
      intro s hs
      rw [List.mem_singleton] at hs
      subst hs
      rfl)
